/-
Verification development for the voyager_coder repository.

This file gives a shallow embedding of the core operations of the
repository — the skill library (base_vector_mem.add_code,
voyager_procedural_mem.add_skill), the dependency resolver
(utils.code_parse.append_dependencies), the code analyzer
(utils.code_parse.extract_from_ast), the curriculum ledger and QA cache
(base_curriculum, voyager_curriculum), and the rollout controller
(voyager_agent.rollout) — together with theorems settling the claims of
the specification against that embedding.

Convention: Python dictionaries are modelled as association lists in
insertion order, Python sets by lists with final deduplication, machine
strings by Lean String, and external collaborators (language model
oracles, the execution environment, the vector index search) as explicit
function parameters.
-/
import Mathlib

namespace VoyagerCoder

/-! ## Generic helpers: decimal representation of naturals

Python f-string formatting of an integer produces its decimal
representation; in Lean this is Nat.repr. The versioning loop in
add_code relies on distinct version numbers producing distinct names, so
we prove Nat.repr injective. -/

/-- Decimal digit characters of a natural number, most significant first. -/
def decChars (n : Nat) : List Char :=
  if _h : n < 10 then [Nat.digitChar n]
  else decChars (n / 10) ++ [Nat.digitChar (n % 10)]
  decreasing_by exact Nat.div_lt_self (by omega) (by omega)

theorem toDigitsCore_eq_decChars (fuel n : Nat) (ds : List Char) (h : n < fuel) :
    Nat.toDigitsCore 10 fuel n ds = decChars n ++ ds := by
  induction fuel generalizing n ds with
  | zero => omega
  | succ f ih =>
    rw [Nat.toDigitsCore]
    by_cases h10 : n < 10
    · have hz : n / 10 = 0 := Nat.div_eq_of_lt h10
      simp only [hz, if_pos rfl]
      rw [decChars]
      simp [h10, Nat.mod_eq_of_lt h10]
    · have hne : n / 10 ≠ 0 := (Nat.div_pos (by omega) (by omega)).ne'
      simp only [if_neg hne]
      have hdiv : n / 10 < f := by
        have h1 : n / 10 < n := Nat.div_lt_self (by omega) (by omega)
        omega
      rw [ih (n / 10) _ hdiv]
      conv_rhs => rw [decChars]
      rw [dif_neg h10]
      simp

theorem nat_repr_eq_decChars (n : Nat) : Nat.repr n = String.mk (decChars n) := by
  show (Nat.toDigits 10 n).asString = _
  rw [Nat.toDigits, toDigitsCore_eq_decChars (n + 1) n [] (by omega)]
  simp [List.asString]

/-- Left inverse of decChars: read a decimal digit string back to a Nat. -/
def unDigits (l : List Char) : Nat :=
  l.foldl (fun a c => 10 * a + (c.toNat - 48)) 0

theorem unDigits_decChars (n : Nat) : unDigits (decChars n) = n := by
  induction n using decChars.induct with
  | case1 n h =>
    rw [decChars]
    have hd : ∀ m, m < 10 → (Nat.digitChar m).toNat - 48 = m := by decide
    simp [unDigits, h, hd n h]
  | case2 n h ih =>
    rw [decChars]
    have hd : ∀ m, m < 10 → (Nat.digitChar m).toNat - 48 = m := by decide
    simp only [dif_neg h]
    unfold unDigits at ih ⊢
    rw [List.foldl_append]
    simp only [List.foldl_cons, List.foldl_nil]
    rw [ih, hd (n % 10) (Nat.mod_lt _ (by omega))]
    omega

theorem nat_repr_injective : Function.Injective Nat.repr := by
  intro m n h
  rw [nat_repr_eq_decChars, nat_repr_eq_decChars] at h
  have hd : decChars m = decChars n := congrArg String.data h
  have h1 := unDigits_decChars m
  rw [hd, unDigits_decChars] at h1
  omega

theorem decChars_ne_nil (n : Nat) : decChars n ≠ [] := by
  induction n using decChars.induct with
  | case1 n h => rw [decChars]; simp [h]
  | case2 n h _ => rw [decChars]; simp [h]

theorem string_append_left_cancel (s t u : String) (h : s ++ t = s ++ u) : t = u := by
  have h0 := congrArg String.data h
  simp only [String.data_append] at h0
  have h2 := List.append_cancel_left h0
  cases t; cases u
  exact congrArg String.mk h2

theorem string_length_append (s t : String) : (s ++ t).length = s.length + t.length := by
  show (s ++ t).data.length = s.data.length + t.data.length
  rw [String.data_append, List.length_append]

/-! ## Generic helpers: association lists as Python dicts -/

/-- Python dict lookup: first (and in a real dict, only) binding of the key. -/
def dictFind {α : Type} : List (String × α) → String → Option α
  | [], _ => none
  | p :: rest, k => if p.1 = k then some p.2 else dictFind rest k

/-- Python dict assignment d[k] = v: overwrite in place if present
(keeping position), else append a new binding. -/
def dictInsert {α : Type} (m : List (String × α)) (k : String) (v : α) :
    List (String × α) :=
  if (dictFind m k).isSome then m.map (fun p => if p.1 = k then (k, v) else p)
  else m ++ [(k, v)]

theorem dictFind_mem_keys {α : Type} (m : List (String × α)) (k : String) (e : α)
    (h : dictFind m k = some e) : k ∈ m.map Prod.fst := by
  induction m with
  | nil => simp [dictFind] at h
  | cons p rest ih =>
    simp only [dictFind] at h
    by_cases hk : p.1 = k
    · simp [hk]
    · rw [if_neg hk] at h
      simp [ih h]

theorem dictFind_append_right {α : Type} (m : List (String × α)) (k : String) (v : α)
    (h : dictFind m k = none) : dictFind (m ++ [(k, v)]) k = some v := by
  induction m with
  | nil => simp [dictFind]
  | cons p rest ih =>
    simp only [dictFind] at h ⊢
    by_cases hk : p.1 = k
    · rw [if_pos hk] at h
      exact absurd h (by simp)
    · rw [if_neg hk] at h ⊢
      exact ih h

theorem dictFind_append_other {α : Type} (m : List (String × α)) (k k2 : String) (v : α)
    (h : k2 ≠ k) : dictFind (m ++ [(k, v)]) k2 = dictFind m k2 := by
  induction m with
  | nil => simp [dictFind, Ne.symm h]
  | cons p rest ih =>
    simp only [List.cons_append, dictFind]
    by_cases hk : p.1 = k2
    · rw [if_pos hk, if_pos hk]
    · rw [if_neg hk, if_neg hk]
      exact ih

/-! ## Generic helpers: dedup keeping the first occurrence -/

/-- Deduplicate a list, keeping the first occurrence of each element and
preserving relative order (the loop of clean_up_tasks over completed
tasks). -/
def dedupKeepFirst {α : Type} [DecidableEq α] (l : List α) : List α :=
  l.foldl (fun acc x => if x ∈ acc then acc else acc ++ [x]) []

theorem dedupAux_mem {α : Type} [DecidableEq α] (l : List α) (acc : List α) (x : α) :
    x ∈ l.foldl (fun acc x => if x ∈ acc then acc else acc ++ [x]) acc ↔
      x ∈ acc ∨ x ∈ l := by
  induction l generalizing acc with
  | nil => simp
  | cons a as ih =>
    simp only [List.foldl_cons]
    by_cases ha : a ∈ acc
    · rw [if_pos ha, ih]
      constructor
      · rintro (h | h)
        · exact Or.inl h
        · exact Or.inr (by simp [h])
      · rintro (h | h)
        · exact Or.inl h
        · rcases List.mem_cons.mp h with rfl | h2
          · exact Or.inl ha
          · exact Or.inr h2
    · rw [if_neg ha, ih]
      simp only [List.mem_append, List.mem_singleton, List.mem_cons]
      tauto

theorem dedupAux_nodup {α : Type} [DecidableEq α] (l : List α) (acc : List α)
    (h : acc.Nodup) :
    (l.foldl (fun acc x => if x ∈ acc then acc else acc ++ [x]) acc).Nodup := by
  induction l generalizing acc with
  | nil => simpa
  | cons a as ih =>
    simp only [List.foldl_cons]
    by_cases ha : a ∈ acc
    · rw [if_pos ha]
      exact ih acc h
    · rw [if_neg ha]
      refine ih (acc ++ [a]) ?_
      simp [List.nodup_append, h, ha]

theorem dedupAux_sublist {α : Type} [DecidableEq α] (l : List α) (acc : List α) :
    (l.foldl (fun acc x => if x ∈ acc then acc else acc ++ [x]) acc).Sublist
      (acc ++ l) := by
  induction l generalizing acc with
  | nil => simp
  | cons a as ih =>
    simp only [List.foldl_cons]
    by_cases ha : a ∈ acc
    · rw [if_pos ha]
      refine (ih acc).trans (List.Sublist.append_left ?_ acc)
      exact List.sublist_cons_self a as
    · rw [if_neg ha]
      refine (ih (acc ++ [a])).trans ?_
      rw [List.append_assoc]
      exact List.Sublist.refl _

theorem dedupKeepFirst_mem {α : Type} [DecidableEq α] (l : List α) (x : α) :
    x ∈ dedupKeepFirst l ↔ x ∈ l := by
  unfold dedupKeepFirst
  rw [dedupAux_mem]
  simp

theorem dedupKeepFirst_nodup {α : Type} [DecidableEq α] (l : List α) :
    (dedupKeepFirst l).Nodup := dedupAux_nodup l [] (by simp)

theorem dedupKeepFirst_sublist {α : Type} [DecidableEq α] (l : List α) :
    (dedupKeepFirst l).Sublist l := by
  have := dedupAux_sublist l ([] : List α)
  simpa using this

theorem dedupKeepFirst_append_singleton {α : Type} [DecidableEq α] (l : List α)
    (a : α) :
    dedupKeepFirst (l ++ [a]) =
      if a ∈ dedupKeepFirst l then dedupKeepFirst l else dedupKeepFirst l ++ [a] := by
  unfold dedupKeepFirst
  rw [List.foldl_append, List.foldl_cons, List.foldl_nil]

/-- The kept occurrences stand in first-occurrence order: in the
deduplicated list, an element coming before another has a strictly
smaller first-occurrence index in the input. Together with Nodup and
equality of members this characterises keep-first deduplication (see
the uniqueness lemma below); a keep-last dedup of [a, b, a] would yield
[b, a], violating this order. -/
theorem dedupKeepFirst_pairwise_indexOf {α : Type} [DecidableEq α] (l : List α) :
    (dedupKeepFirst l).Pairwise (fun x y => l.indexOf x < l.indexOf y) := by
  induction l using List.reverseRecOn with
  | nil => simp [dedupKeepFirst]
  | append_singleton l a ih =>
    rw [dedupKeepFirst_append_singleton]
    by_cases ha : a ∈ dedupKeepFirst l
    · rw [if_pos ha]
      refine List.Pairwise.imp_of_mem ?_ ih
      intro x y hx hy hxy
      rw [List.indexOf_append_of_mem ((dedupKeepFirst_mem l x).mp hx),
        List.indexOf_append_of_mem ((dedupKeepFirst_mem l y).mp hy)]
      exact hxy
    · rw [if_neg ha, List.pairwise_append]
      refine ⟨List.Pairwise.imp_of_mem ?_ ih, by simp, ?_⟩
      · intro x y hx hy hxy
        rw [List.indexOf_append_of_mem ((dedupKeepFirst_mem l x).mp hx),
          List.indexOf_append_of_mem ((dedupKeepFirst_mem l y).mp hy)]
        exact hxy
      · intro x hx y hy
        rcases List.mem_singleton.mp hy with rfl
        have hxl : x ∈ l := (dedupKeepFirst_mem l x).mp hx
        have hanl : y ∉ l := fun h => ha ((dedupKeepFirst_mem l y).mpr h)
        rw [List.indexOf_append_of_mem hxl, List.indexOf_append_of_not_mem hanl]
        have h1 : List.indexOf x l < l.length := List.indexOf_lt_length.mpr hxl
        omega

/-- Uniqueness: a duplicate-free list with the same members as another,
both in first-occurrence order of the same input, is determined — so
Nodup, member equality and the Pairwise first-occurrence order pin down
the keep-first deduplication. -/
theorem eq_of_nodup_of_mem_iff_of_pairwise_indexOf {α : Type} [DecidableEq α]
    (l r1 r2 : List α) (h1 : r1.Nodup) (h2 : r2.Nodup)
    (hm : ∀ x, x ∈ r1 ↔ x ∈ r2)
    (hp1 : r1.Pairwise (fun x y => l.indexOf x < l.indexOf y))
    (hp2 : r2.Pairwise (fun x y => l.indexOf x < l.indexOf y)) : r1 = r2 := by
  haveI : IsAntisymm α (fun x y => l.indexOf x < l.indexOf y) :=
    ⟨fun a b hab hba => (Nat.lt_irrefl _ (Nat.lt_trans hab hba)).elim⟩
  exact List.eq_of_perm_of_sorted ((List.perm_ext_iff_of_nodup h1 h2).mpr hm) hp1 hp2

/-! ## Generic helpers: strict filter length -/

theorem filter_length_lt {α : Type} (l : List α) (p q : α → Bool)
    (himp : ∀ a, p a = true → q a = true) (x : α) (hx : x ∈ l) (hqx : q x = true)
    (hpx : p x = false) : (l.filter p).length < (l.filter q).length := by
  induction l with
  | nil => simp at hx
  | cons b bs ih =>
    have hle : (bs.filter p).length ≤ (bs.filter q).length :=
      List.Sublist.length_le (List.monotone_filter_right bs himp)
    rcases List.mem_cons.mp hx with rfl | hmem
    · simp [List.filter_cons, hqx, hpx]
      omega
    · by_cases hb : p b = true
      · have hqb := himp b hb
        simp only [List.filter_cons, hb, hqb, if_true, List.length_cons]
        have := ih hmem
        omega
      · rw [Bool.not_eq_true] at hb
        simp only [List.filter_cons, hb]
        have := ih hmem
        by_cases hqb : q b = true
        · simp only [hqb, if_true, if_false, List.length_cons]
          simpa using Nat.lt_succ_of_lt this
        · rw [Bool.not_eq_true] at hqb
          simp only [hqb, if_false]
          simpa using this

/-! ## Python str.replace

Python s.replace(old, new) replaces every non-overlapping occurrence of
old in s, scanning left to right. The repository only ever calls it with
a non-empty pattern (a function name followed by an opening
parenthesis), so the embedding fixes the behaviour for non-empty
patterns; fuel equal to the length of the subject makes the recursion
structural so that concrete instances reduce. -/

def listStartsWith : List Char → List Char → Bool
  | [], _ => true
  | _ :: _, [] => false
  | p :: ps, c :: cs => p == c && listStartsWith ps cs

def pyReplaceAux (pat new : List Char) : Nat → List Char → List Char
  | _, [] => []
  | 0, l => l
  | fuel + 1, c :: cs =>
    if listStartsWith pat (c :: cs) then
      new ++ pyReplaceAux pat new fuel (List.drop (pat.length - 1) cs)
    else
      c :: pyReplaceAux pat new fuel cs

def pyReplace (s pat new : String) : String :=
  String.mk (pyReplaceAux pat.data new.data s.data.length s.data)

theorem listStartsWith_append_drop (p l : List Char)
    (h : listStartsWith p l = true) : p ++ List.drop p.length l = l := by
  induction p generalizing l with
  | nil => simp
  | cons a ps ih =>
    match l with
    | [] => simp [listStartsWith] at h
    | c :: cs =>
      rw [listStartsWith, Bool.and_eq_true] at h
      obtain ⟨h1, h2⟩ := h
      have ha : a = c := by simpa using h1
      subst ha
      simp only [List.length_cons, List.drop_succ_cons, List.cons_append,
        List.cons.injEq, true_and]
      exact ih cs h2

theorem pyReplaceAux_self (pat : List Char) (hpat : pat ≠ []) (fuel : Nat)
    (l : List Char) (hfuel : l.length ≤ fuel) :
    pyReplaceAux pat pat fuel l = l := by
  induction fuel generalizing l with
  | zero =>
    match l with
    | [] => rfl
    | c :: cs => simp at hfuel
  | succ f ih =>
    match l with
    | [] => rfl
    | c :: cs =>
      rw [pyReplaceAux]
      by_cases hs : listStartsWith pat (c :: cs) = true
      · rw [if_pos hs]
        have hlen : (List.drop (pat.length - 1) cs).length ≤ f := by
          have h1 : (List.drop (pat.length - 1) cs).length ≤ cs.length :=
            List.Sublist.length_le (List.drop_sublist _ _)
          have h2 : cs.length + 1 ≤ f + 1 := by simpa using hfuel
          omega
        rw [ih _ hlen]
        have hd : List.drop (pat.length - 1) cs = List.drop pat.length (c :: cs) := by
          match pat, hpat with
          | p :: ps, _ => simp
        rw [hd]
        exact listStartsWith_append_drop pat (c :: cs) hs
      · rw [if_neg hs]
        have h2 : cs.length ≤ f := by simpa using hfuel
        rw [ih cs h2]

theorem pyReplace_self (s pat : String) (hpat : pat.data ≠ []) :
    pyReplace s pat pat = s := by
  unfold pyReplace
  rw [pyReplaceAux_self pat.data hpat s.data.length s.data (le_refl _)]

/-! ## Skill library: cog_arch/memories/base_vector_mem.py, add_code

A stored entry of fn_str_map (every key the mapping of add_skill
produces, minus the name, which becomes the dict key). -/

structure Entry where
  code : String
  dependencies : Option (List String)
  task : String
  description : String
deriving Repr, DecidableEq

/-- The versioned name built by the f-string of add_code line 196. -/
def mkVersionName (old_name : String) (ver : Nat) : String :=
  old_name ++ "_v" ++ Nat.repr ver

/-- The while loop of add_code (lines 186-196): while the candidate name
is taken, optionally skip when the new code equals the stored code after
normalising the function header naming, else bump the version counter.
Fuel m.length + 1 is always enough, as proved below. -/
def add_code_loop (m : List (String × Entry)) (old_name code : String)
    (prevent_duplicates : Bool) : Nat → Nat → String → Option String
  | 0, _, name => some name
  | fuel + 1, ver, name =>
    match dictFind m name with
    | none => some name
    | some e =>
      if prevent_duplicates &&
          code == pyReplace e.code (name ++ "(") (old_name ++ "(") then
        none
      else
        add_code_loop m old_name code prevent_duplicates fuel (ver + 1)
          (mkVersionName old_name (ver + 1))

structure AddCodeResult where
  returned : Option String
  store : List (String × Entry)
deriving Repr, DecidableEq

/-- add_code after the mapping step: the derived name, code and the other
mapped fields are the inputs; the vector index insertion and the json
dump are external effects (the index stays in lockstep by construction,
asserted at line 210). Returns the name stored under (None on a skipped
duplicate) and the updated fn_str_map. -/
def add_code (m : List (String × Entry)) (name code : String)
    (dependencies : Option (List String)) (task : String) (description : String)
    (prevent_duplicates : Bool) : AddCodeResult :=
  match add_code_loop m name code prevent_duplicates (m.length + 1) 1 name with
  | none => { returned := none, store := m }
  | some final =>
    let code2 :=
      if final = name then code else pyReplace code (name ++ "(") (final ++ "(")
    { returned := some final,
      store := dictInsert m final
        { code := code2, dependencies := dependencies, task := task,
          description := description } }

/-- Result dictionary of the coding module, as consumed by
append_dependencies and add_skill. full_code is absent until
append_dependencies sets it. -/
structure ParsedResult where
  program_code : String
  program_name : String
  dependencies : List String
  full_code : Option String
deriving Repr, DecidableEq

/-- add_skill (voyager_procedural_mem.py lines 58-91): build the mapping
and call add_code; the file dumps are external effects. add_code is
called with the default prevent_duplicates=False. -/
def add_skill (m : List (String × Entry)) (p : ParsedResult)
    (skill_description task : String) : AddCodeResult :=
  add_code m p.program_name p.program_code (some p.dependencies) task
    skill_description false

theorem mkVersionName_inj (f : String) (v u : Nat)
    (h : mkVersionName f v = mkVersionName f u) : v = u := by
  unfold mkVersionName at h
  have h1 := string_append_left_cancel (f ++ "_v") _ _ h
  exact nat_repr_injective h1

theorem nat_repr_length_pos (v : Nat) : 1 ≤ (Nat.repr v).length := by
  rw [nat_repr_eq_decChars]
  show 1 ≤ (decChars v).length
  have := decChars_ne_nil v
  cases hd : decChars v with
  | nil => exact absurd hd this
  | cons c cs => simp

theorem mkVersionName_ne (f : String) (v : Nat) : mkVersionName f v ≠ f := by
  intro h
  have hlen := congrArg String.length h
  unfold mkVersionName at hlen
  rw [string_length_append, string_length_append] at hlen
  have h2 : ("_v" : String).length = 2 := by decide
  have h3 := nat_repr_length_pos v
  omega

theorem add_code_loop_false_fresh (m : List (String × Entry)) (old code : String) :
    ∀ fuel ver,
      (∃ k, k < fuel ∧ dictFind m (mkVersionName old (ver + k)) = none) →
      ∃ k, k < fuel ∧
        (∀ j, j < k → (dictFind m (mkVersionName old (ver + j))).isSome) ∧
        dictFind m (mkVersionName old (ver + k)) = none ∧
        add_code_loop m old code false fuel ver (mkVersionName old ver) =
          some (mkVersionName old (ver + k)) := by
  intro fuel
  induction fuel with
  | zero =>
    rintro ver ⟨k, hk, _⟩
    omega
  | succ f ih =>
    rintro ver ⟨k, hk, hfind⟩
    rw [add_code_loop]
    cases hv : dictFind m (mkVersionName old ver) with
    | none =>
      refine ⟨0, by omega, fun j hj => absurd hj (by omega), by simpa using hv, ?_⟩
      simp
    | some e =>
      simp only [Bool.false_and, if_neg (by simp : ¬(false = true))]
      have hk0 : k ≠ 0 := by
        intro h0
        rw [h0] at hfind
        simp at hfind
        rw [hfind] at hv
        simp at hv
      obtain ⟨k2, hk2, hmin2, hfind2, hloop⟩ :=
        ih (ver + 1) ⟨k - 1, by omega, by
          have : ver + 1 + (k - 1) = ver + k := by omega
          rw [this]
          exact hfind⟩
      refine ⟨k2 + 1, by omega, ?_, ?_, ?_⟩
      · intro j hj
        cases j with
        | zero => simp [hv]
        | succ j2 =>
          have : ver + (j2 + 1) = ver + 1 + j2 := by omega
          rw [this]
          exact hmin2 j2 (by omega)
      · have : ver + (k2 + 1) = ver + 1 + k2 := by omega
        rw [this]
        exact hfind2
      · have : ver + (k2 + 1) = ver + 1 + k2 := by omega
        rw [this]
        exact hloop

theorem exists_fresh_version (m : List (String × Entry)) (f : String) (e : Entry)
    (hf : dictFind m f = some e) :
    ∃ k, k < m.length ∧ dictFind m (mkVersionName f (2 + k)) = none := by
  by_contra hall
  push_neg at hall
  have hsome : ∀ k, k < m.length → ∃ e2, dictFind m (mkVersionName f (2 + k)) = some e2 := by
    intro k hk
    cases hv : dictFind m (mkVersionName f (2 + k)) with
    | none => exact absurd hv (hall k hk)
    | some e2 => exact ⟨e2, rfl⟩
  set keys := m.map Prod.fst with hkeys
  set probes := f :: (List.range m.length).map (fun k => mkVersionName f (2 + k))
    with hprobes
  have hsub : ∀ x ∈ probes, x ∈ keys := by
    intro x hx
    rw [hprobes] at hx
    rcases List.mem_cons.mp hx with rfl | hx2
    · exact dictFind_mem_keys m x e hf
    · obtain ⟨k, hk, rfl⟩ := List.mem_map.mp hx2
      obtain ⟨e2, he2⟩ := hsome k (List.mem_range.mp hk)
      exact dictFind_mem_keys m _ e2 he2
  have hnodup : probes.Nodup := by
    rw [hprobes]
    refine List.nodup_cons.mpr ⟨?_, ?_⟩
    · intro hmem
      obtain ⟨k, _, hk2⟩ := List.mem_map.mp hmem
      exact mkVersionName_ne f (2 + k) hk2
    · refine List.Nodup.map ?_ (List.nodup_range _)
      intro a b hab
      have := mkVersionName_inj f (2 + a) (2 + b) hab
      omega
  have hcard1 : probes.toFinset.card = m.length + 1 := by
    rw [List.toFinset_card_of_nodup hnodup, hprobes]
    simp
  have hcard2 : probes.toFinset.card ≤ keys.toFinset.card := by
    apply Finset.card_le_card
    intro x hx
    rw [List.mem_toFinset] at hx ⊢
    exact hsub x hx
  have hcard3 : keys.toFinset.card ≤ m.length := by
    calc keys.toFinset.card ≤ keys.length := keys.toFinset_card_le
    _ = m.length := by rw [hkeys]; simp
  omega

theorem add_code_loop_false_spec (m : List (String × Entry)) (f c : String) (e : Entry)
    (hf : dictFind m f = some e) :
    ∃ v, 2 ≤ v ∧
      (∀ u, 2 ≤ u → u < v → (dictFind m (mkVersionName f u)).isSome) ∧
      dictFind m (mkVersionName f v) = none ∧
      add_code_loop m f c false (m.length + 1) 1 f = some (mkVersionName f v) := by
  have hL : 1 ≤ m.length := by
    cases m with
    | nil => simp [dictFind] at hf
    | cons p rest => simp
  rw [add_code_loop, hf]
  simp only [Bool.false_and, if_neg (by simp : ¬(false = true))]
  obtain ⟨k, hk, hfind⟩ := exists_fresh_version m f e hf
  obtain ⟨k2, hk2, hmin, hfind2, hloop⟩ :=
    add_code_loop_false_fresh m f c m.length 2 ⟨k, hk, hfind⟩
  refine ⟨2 + k2, by omega, ?_, hfind2, hloop⟩
  intro u hu1 hu2
  have : u = 2 + (u - 2) := by omega
  rw [this]
  exact hmin (u - 2) (by omega)

theorem add_code_loop_false_ne_none (m : List (String × Entry)) (old code : String) :
    ∀ fuel ver name, add_code_loop m old code false fuel ver name ≠ none := by
  intro fuel
  induction fuel with
  | zero => intro ver name; rw [add_code_loop]; simp
  | succ f ih =>
    intro ver name
    rw [add_code_loop]
    cases hv : dictFind m name with
    | none => simp
    | some e =>
      simp only [Bool.false_and, if_neg (by simp : ¬(false = true))]
      exact ih (ver + 1) (mkVersionName old (ver + 1))

/-- With prevent_duplicates=False, add_code always stores a fresh entry
carrying exactly the mapped fields, under the returned name. -/
theorem add_code_false_stored (m : List (String × Entry)) (name code : String)
    (deps : Option (List String)) (task desc : String) :
    ∃ final, (add_code m name code deps task desc false).returned = some final ∧
      dictFind (add_code m name code deps task desc false).store final =
        some { code := if final = name then code
                       else pyReplace code (name ++ "(") (final ++ "("),
               dependencies := deps, task := task, description := desc } := by
  cases hf : dictFind m name with
  | none =>
    have hloop : add_code_loop m name code false (m.length + 1) 1 name = some name := by
      rw [add_code_loop, hf]
    have hres : add_code m name code deps task desc false =
        { returned := some name,
          store := m ++ [(name,
            { code := code, dependencies := deps, task := task,
              description := desc })] } := by
      unfold add_code
      rw [hloop]
      simp only [if_pos rfl]
      unfold dictInsert
      rw [hf]
      simp
    refine ⟨name, by rw [hres], ?_⟩
    rw [hres, if_pos rfl]
    exact dictFind_append_right m _ _ hf
  | some e =>
    obtain ⟨v, _, _, hnone, hloop⟩ := add_code_loop_false_spec m name code e hf
    have hne : mkVersionName name v ≠ name := mkVersionName_ne name v
    have hres : add_code m name code deps task desc false =
        { returned := some (mkVersionName name v),
          store := m ++ [(mkVersionName name v,
            { code := pyReplace code (name ++ "(") (mkVersionName name v ++ "("),
              dependencies := deps, task := task, description := desc })] } := by
      unfold add_code
      rw [hloop]
      simp only [if_neg hne]
      unfold dictInsert
      rw [hnone]
      simp
    refine ⟨mkVersionName name v, by rw [hres], ?_⟩
    rw [hres, if_neg hne]
    exact dictFind_append_right m _ _ hnone

/-- C1: if the store already holds an entry for name f and a skill with
derived name f but different code is added (default duplicate policy,
prevent_duplicates=False as in add_skill), then the new skill is stored
under the smallest unused versioned name f_v{v} with v at least 2, every
occurrence of the header token f( in the new code is rewritten to
f_v{v}(, and the previously stored entry for f is unchanged. -/
theorem add_code_version_collision
    (m : List (String × Entry)) (f c : String) (deps : Option (List String))
    (task desc : String) (e : Entry)
    (hf : dictFind m f = some e) (_hdiff : c ≠ e.code) :
    ∃ v, 2 ≤ v ∧
      dictFind m (mkVersionName f v) = none ∧
      (∀ u, 2 ≤ u → u < v → (dictFind m (mkVersionName f u)).isSome) ∧
      (add_code m f c deps task desc false).returned = some (mkVersionName f v) ∧
      dictFind (add_code m f c deps task desc false).store (mkVersionName f v) =
        some { code := pyReplace c (f ++ "(") (mkVersionName f v ++ "("),
               dependencies := deps, task := task, description := desc } ∧
      dictFind (add_code m f c deps task desc false).store f = some e := by
  obtain ⟨v, hv2, hmin, hnone, hloop⟩ := add_code_loop_false_spec m f c e hf
  have hne : mkVersionName f v ≠ f := mkVersionName_ne f v
  have hres : add_code m f c deps task desc false =
      { returned := some (mkVersionName f v),
        store := m ++ [(mkVersionName f v,
          { code := pyReplace c (f ++ "(") (mkVersionName f v ++ "("),
            dependencies := deps, task := task, description := desc })] } := by
    unfold add_code
    rw [hloop]
    simp only [if_neg hne]
    unfold dictInsert
    rw [hnone]
    simp
  refine ⟨v, hv2, hnone, hmin, ?_, ?_, ?_⟩
  · rw [hres]
  · rw [hres]
    exact dictFind_append_right m _ _ hnone
  · rw [hres]
    rw [dictFind_append_other m _ f _ (Ne.symm hne)]
    exact hf

def c1Entry : Entry :=
  { code := "def f():\n    return f(1)", dependencies := some [], task := "t0",
    description := "d0" }

/-- Witness for C1 at a concrete store: one stored skill f, a second
skill named f with different code arrives. -/
theorem add_code_version_collision_witness :
    ∃ v, 2 ≤ v ∧
      dictFind [("f", c1Entry)] (mkVersionName "f" v) = none ∧
      (∀ u, 2 ≤ u → u < v →
        (dictFind [("f", c1Entry)] (mkVersionName "f" u)).isSome) ∧
      (add_code [("f", c1Entry)] "f" "def f():\n    return f(2)" (some []) "t1" "d1"
        false).returned = some (mkVersionName "f" v) ∧
      dictFind (add_code [("f", c1Entry)] "f" "def f():\n    return f(2)" (some [])
          "t1" "d1" false).store (mkVersionName "f" v) =
        some { code := pyReplace "def f():\n    return f(2)" ("f" ++ "(")
                 (mkVersionName "f" v ++ "("),
               dependencies := some [], task := "t1", description := "d1" } ∧
      dictFind (add_code [("f", c1Entry)] "f" "def f():\n    return f(2)" (some [])
          "t1" "d1" false).store "f" = some c1Entry :=
  add_code_version_collision [("f", c1Entry)] "f" "def f():\n    return f(2)"
    (some []) "t1" "d1" c1Entry (by decide) (by decide)

/-- C2 (amended): under the skip-if-identical policy
(prevent_duplicates=True), adding a pair whose code is identical to the
stored code under the same name is a no-op on the store, and add returns
None — not the existing name (the Python function executes a bare
return). -/
theorem add_code_skip_duplicate (m : List (String × Entry)) (n : String)
    (deps : Option (List String)) (task desc : String) (e : Entry)
    (hn : dictFind m n = some e) :
    add_code m n e.code deps task desc true = { returned := none, store := m } := by
  unfold add_code
  have hpat : (n ++ "(").data ≠ [] := by
    rw [String.data_append]
    simp
  have hloop : add_code_loop m n e.code true (m.length + 1) 1 n = none := by
    rw [add_code_loop, hn]
    simp [pyReplace_self e.code (n ++ "(") hpat]
  rw [hloop]

def c2Entry : Entry :=
  { code := "def g():\n    return g(1)", dependencies := some [], task := "t",
    description := "d" }

/-- Counterexample to C2 as stated: re-adding the stored pair under the
skip-if-identical policy returns None, not the existing name g. -/
theorem add_code_skip_counterexample :
    (add_code [("g", c2Entry)] "g" c2Entry.code (some []) "t" "d" true).returned
        = none ∧
    (add_code [("g", c2Entry)] "g" c2Entry.code (some []) "t" "d" true).returned
        ≠ some "g" ∧
    (add_code [("g", c2Entry)] "g" c2Entry.code (some []) "t" "d" true).store
        = [("g", c2Entry)] := by
  refine ⟨by decide, by decide, by decide⟩

/-- Witness for the amended C2 at a concrete store. -/
theorem add_code_skip_duplicate_witness :
    add_code [("g", c2Entry)] "g" c2Entry.code (some []) "t" "d" true =
      { returned := none, store := [("g", c2Entry)] } :=
  add_code_skip_duplicate [("g", c2Entry)] "g" (some []) "t" "d" c2Entry (by decide)

/-! ## Dependency resolver: utils/code_parse.py, append_dependencies

The while loop pops dependency names from the front of the list, looks
each unvisited name up in the lookup tables in order (first match wins),
appends the code of a hit to the accumulation list, enqueues the
recorded dependency names of the hit, and marks the name visited; a miss
is only a logged warning. Names are marked visited before expansion, so
the traversal terminates on cyclic graphs; the termination measure is
lexicographic on (number of table keys not yet visited, queue length). -/

def allMapKeys (maps : List (List (String × Entry))) : List String :=
  (maps.map (fun m => m.map Prod.fst)).flatten

/-- The first lookup table containing the name wins (the for loop over
fn_str_map_list with break). -/
def findInMaps (maps : List (List (String × Entry))) (q : String) : Option Entry :=
  match maps with
  | [] => none
  | m :: rest =>
    match dictFind m q with
    | some e => some e
    | none => findInMaps rest q

theorem findInMaps_mem_keys (maps : List (List (String × Entry))) (q : String)
    (e : Entry) (h : findInMaps maps q = some e) : q ∈ allMapKeys maps := by
  induction maps with
  | nil => simp [findInMaps] at h
  | cons m rest ih =>
    rw [findInMaps] at h
    unfold allMapKeys
    simp only [List.map_cons, List.flatten_cons, List.mem_append]
    cases hm : dictFind m q with
    | none =>
      rw [hm] at h
      right
      simpa [allMapKeys] using ih h
    | some e2 =>
      rw [hm] at h
      exact Or.inl (dictFind_mem_keys m q e2 hm)

def unvisitedCount (maps : List (List (String × Entry))) (visited : List String) :
    Nat :=
  ((dedupKeepFirst (allMapKeys maps)).filter (fun k => decide (k ∉ visited))).length

theorem unvisitedCount_lt (maps : List (List (String × Entry)))
    (visited : List String) (q : String) (e : Entry)
    (hq : findInMaps maps q = some e) (hnv : q ∉ visited) :
    unvisitedCount maps (visited ++ [q]) < unvisitedCount maps visited := by
  apply filter_length_lt _ _ _ ?_ q
  · exact (dedupKeepFirst_mem _ q).mpr (findInMaps_mem_keys maps q e hq)
  · simpa using hnv
  · simp
  · intro a ha
    simp only [decide_eq_true_eq] at *
    intro hmem
    exact ha (by simp [hmem])

/-- The while loop of append_dependencies (lines 170-185), with the
queue, the visited set and the accumulation list explicit. Returns the
final visited list (in expansion order) and the accumulation list (in
discovery order). -/
def collectDeps (maps : List (List (String × Entry))) :
    List String → List String → List String → List String × List String
  | [], visited, acc => (visited, acc)
  | q :: rest, visited, acc =>
    if hv : q ∈ visited then
      collectDeps maps rest visited acc
    else
      match hf : findInMaps maps q with
      | some e =>
        collectDeps maps (rest ++ e.dependencies.getD []) (visited ++ [q])
          (acc ++ [e.code])
      | none =>
        collectDeps maps rest visited acc
termination_by queue visited _ => (unvisitedCount maps visited, queue.length)
decreasing_by
  · apply Prod.Lex.right
    simp
  · apply Prod.Lex.left
    exact unvisitedCount_lt maps visited q e hf hv
  · apply Prod.Lex.right
    simp

theorem collectDeps_nil (maps : List (List (String × Entry)))
    (visited acc : List String) : collectDeps maps [] visited acc = (visited, acc) := by
  rw [collectDeps]

theorem collectDeps_visited (maps : List (List (String × Entry)))
    (q : String) (rest visited acc : List String) (hv : q ∈ visited) :
    collectDeps maps (q :: rest) visited acc = collectDeps maps rest visited acc := by
  rw [collectDeps]
  simp only [dif_pos hv]

theorem collectDeps_hit (maps : List (List (String × Entry)))
    (q : String) (rest visited acc : List String) (e : Entry)
    (hv : q ∉ visited) (hf : findInMaps maps q = some e) :
    collectDeps maps (q :: rest) visited acc =
      collectDeps maps (rest ++ e.dependencies.getD []) (visited ++ [q])
        (acc ++ [e.code]) := by
  rw [collectDeps]
  simp only [dif_neg hv]
  split
  next e2 heq =>
    rw [heq] at hf
    injection hf with h
    subst h
    rfl
  next heq =>
    rw [heq] at hf
    cases hf

theorem collectDeps_miss (maps : List (List (String × Entry)))
    (q : String) (rest visited acc : List String)
    (hv : q ∉ visited) (hf : findInMaps maps q = none) :
    collectDeps maps (q :: rest) visited acc = collectDeps maps rest visited acc := by
  rw [collectDeps]
  simp only [dif_neg hv]
  split
  next e2 heq =>
    rw [heq] at hf
    cases hf
  next heq => rfl

/-- The dependency resolver of code_parse.py: run the closure loop, then
reverse the accumulation list, append the original candidate code last
and join with blank lines; the dependency list of the parsed result has
been drained by the loop and full_code is set on the result. -/
def append_dependencies (p : ParsedResult) (maps : List (List (String × Entry))) :
    String × ParsedResult :=
  let res := collectDeps maps p.dependencies [] []
  let full_code := String.intercalate "\n\n" (res.2.reverse ++ [p.program_code])
  (full_code,
   { program_code := p.program_code, program_name := p.program_name,
     dependencies := [], full_code := some full_code })

theorem collectDeps_visited_mono (maps : List (List (String × Entry)))
    (queue visited acc : List String) :
    ∀ v ∈ visited, v ∈ (collectDeps maps queue visited acc).1 := by
  induction queue, visited, acc using collectDeps.induct maps with
  | case1 visited acc => simp [collectDeps_nil]
  | case2 q rest visited acc hv ih =>
    rw [collectDeps_visited maps q rest visited acc hv]
    exact ih
  | case3 q rest visited acc hv e hf ih =>
    rw [collectDeps_hit maps q rest visited acc e hv hf]
    intro v hvmem
    exact ih v (by simp [hvmem])
  | case4 q rest visited acc hv hf ih =>
    rw [collectDeps_miss maps q rest visited acc hv hf]
    exact ih

theorem collectDeps_nodup (maps : List (List (String × Entry)))
    (queue visited acc : List String) (h : visited.Nodup) :
    (collectDeps maps queue visited acc).1.Nodup := by
  induction queue, visited, acc using collectDeps.induct maps with
  | case1 visited acc => simpa [collectDeps_nil] using h
  | case2 q rest visited acc hv ih =>
    rw [collectDeps_visited maps q rest visited acc hv]
    exact ih h
  | case3 q rest visited acc hv e hf ih =>
    rw [collectDeps_hit maps q rest visited acc e hv hf]
    exact ih (by simp [List.nodup_append, h, hv])
  | case4 q rest visited acc hv hf ih =>
    rw [collectDeps_miss maps q rest visited acc hv hf]
    exact ih h

theorem collectDeps_acc (maps : List (List (String × Entry)))
    (queue visited acc : List String)
    (h : acc = visited.filterMap (fun q => (findInMaps maps q).map Entry.code)) :
    (collectDeps maps queue visited acc).2 =
      (collectDeps maps queue visited acc).1.filterMap
        (fun q => (findInMaps maps q).map Entry.code) := by
  induction queue, visited, acc using collectDeps.induct maps with
  | case1 visited acc =>
    rw [collectDeps_nil]
    exact h
  | case2 q rest visited acc hv ih =>
    rw [collectDeps_visited maps q rest visited acc hv]
    exact ih h
  | case3 q rest visited acc hv e hf ih =>
    rw [collectDeps_hit maps q rest visited acc e hv hf]
    refine ih ?_
    rw [h, List.filterMap_append]
    simp [hf]
  | case4 q rest visited acc hv hf ih =>
    rw [collectDeps_miss maps q rest visited acc hv hf]
    exact ih h

theorem collectDeps_queue_complete (maps : List (List (String × Entry)))
    (queue visited acc : List String) :
    ∀ q ∈ queue, (findInMaps maps q).isSome →
      q ∈ (collectDeps maps queue visited acc).1 := by
  induction queue, visited, acc using collectDeps.induct maps with
  | case1 visited acc => simp
  | case2 f rest visited acc hv ih =>
    intro q hq hqs
    rw [collectDeps_visited maps f rest visited acc hv]
    rcases List.mem_cons.mp hq with rfl | hq2
    · exact collectDeps_visited_mono maps rest visited acc q hv
    · exact ih q hq2 hqs
  | case3 f rest visited acc hv e hf ih =>
    intro q hq hqs
    rw [collectDeps_hit maps f rest visited acc e hv hf]
    rcases List.mem_cons.mp hq with rfl | hq2
    · exact collectDeps_visited_mono maps _ _ _ q (by simp)
    · exact ih q (by simp [hq2]) hqs
  | case4 f rest visited acc hv hf ih =>
    intro q hq hqs
    rw [collectDeps_miss maps f rest visited acc hv hf]
    rcases List.mem_cons.mp hq with rfl | hq2
    · rw [hf] at hqs
      simp at hqs
    · exact ih q hq2 hqs

theorem collectDeps_deps_closed (maps : List (List (String × Entry)))
    (queue visited acc : List String) :
    ∀ s es, s ∈ (collectDeps maps queue visited acc).1 → s ∉ visited →
      findInMaps maps s = some es →
      ∀ d ∈ es.dependencies.getD [], (findInMaps maps d).isSome →
        d ∈ (collectDeps maps queue visited acc).1 := by
  induction queue, visited, acc using collectDeps.induct maps with
  | case1 visited acc =>
    intro s es hs hnv
    rw [collectDeps_nil] at hs
    exact absurd hs hnv
  | case2 f rest visited acc hv ih =>
    rw [collectDeps_visited maps f rest visited acc hv]
    exact ih
  | case3 f rest visited acc hv e hf ih =>
    rw [collectDeps_hit maps f rest visited acc e hv hf]
    intro s es hs hnv hes d hd hds
    by_cases hsf : s = f
    · subst hsf
      rw [hf] at hes
      injection hes with h2
      subst h2
      refine collectDeps_queue_complete maps _ _ _ d ?_ hds
      simp [hd]
    · exact ih s es hs (by simp [hnv, hsf]) hes d hd hds
  | case4 f rest visited acc hv hf ih =>
    rw [collectDeps_miss maps f rest visited acc hv hf]
    exact ih

/-- The skills transitively required by a list of root dependency names:
a root that resolves to an entry, or a recorded dependency (of an
already required skill) that itself resolves to an entry. -/
inductive ReachesSkill (maps : List (List (String × Entry))) (roots : List String) :
    String → Prop where
  | root : ∀ q e, q ∈ roots → findInMaps maps q = some e →
      ReachesSkill maps roots q
  | step : ∀ p ep q e, ReachesSkill maps roots p → findInMaps maps p = some ep →
      q ∈ ep.dependencies.getD [] → findInMaps maps q = some e →
      ReachesSkill maps roots q

theorem collectDeps_reaches_complete (maps : List (List (String × Entry)))
    (roots : List String) (q : String) (h : ReachesSkill maps roots q) :
    q ∈ (collectDeps maps roots [] []).1 := by
  induction h with
  | root q e hq hf =>
    exact collectDeps_queue_complete maps roots [] [] q hq (by simp [hf])
  | step p ep q e hp hfp hq hf ihp =>
    exact collectDeps_deps_closed maps roots [] [] p ep ihp (by simp) hfp q hq
      (by simp [hf])

/-- C3: with skill a recording no dependencies and skill b recording
dependency list [a], resolving a candidate whose dependency list is [b]
assembles the code of a, then the code of b, then the candidate code,
each exactly once; and in general the assembled output is the reverse of
the discovery-order accumulation list with the candidate code appended
last. -/
theorem append_dependencies_chain (maps : List (List (String × Entry)))
    (aN bN cand pn : String) (eA eB : Entry)
    (hab : aN ≠ bN)
    (ha : findInMaps maps aN = some eA) (hb : findInMaps maps bN = some eB)
    (hdA : eA.dependencies = some []) (hdB : eB.dependencies = some [aN]) :
    append_dependencies
        { program_code := cand, program_name := pn, dependencies := [bN],
          full_code := none } maps =
      (String.intercalate "\n\n" [eA.code, eB.code, cand],
       { program_code := cand, program_name := pn, dependencies := [],
         full_code := some (String.intercalate "\n\n" [eA.code, eB.code, cand]) }) ∧
    ∀ (p : ParsedResult) (maps2 : List (List (String × Entry))),
      append_dependencies p maps2 =
        (String.intercalate "\n\n"
           ((collectDeps maps2 p.dependencies [] []).2.reverse ++ [p.program_code]),
         { program_code := p.program_code, program_name := p.program_name,
           dependencies := [],
           full_code := some (String.intercalate "\n\n"
             ((collectDeps maps2 p.dependencies [] []).2.reverse
               ++ [p.program_code])) }) := by
  constructor
  · have h1 : collectDeps maps [bN] [] [] = ([bN, aN], [eB.code, eA.code]) := by
      rw [collectDeps_hit maps bN [] [] [] eB (by simp) hb, hdB]
      simp only [Option.getD_some, List.nil_append]
      rw [collectDeps_hit maps aN [] [bN] [eB.code] eA
        (by simp [hab]) ha, hdA]
      simp only [Option.getD_some, List.append_nil, List.nil_append,
        List.singleton_append]
      rw [collectDeps_nil]
    unfold append_dependencies
    rw [h1]
    simp
  · intro p maps2
    rfl

def c3EntryA : Entry :=
  { code := "def a(x):\n    return x + 1", dependencies := some [], task := "ta",
    description := "da" }

def c3EntryB : Entry :=
  { code := "def b(x):\n    return a(x) * 2", dependencies := some ["a"],
    task := "tb", description := "db" }

/-- Witness for C3 at a concrete lookup table. -/
theorem append_dependencies_chain_witness :
    append_dependencies
        { program_code := "def c(x):\n    return b(x)", program_name := "c",
          dependencies := ["b"], full_code := none }
        [[("a", c3EntryA), ("b", c3EntryB)]] =
      (String.intercalate "\n\n"
         [c3EntryA.code, c3EntryB.code, "def c(x):\n    return b(x)"],
       { program_code := "def c(x):\n    return b(x)", program_name := "c",
         dependencies := [],
         full_code := some (String.intercalate "\n\n"
           [c3EntryA.code, c3EntryB.code, "def c(x):\n    return b(x)"]) }) :=
  (append_dependencies_chain [[("a", c3EntryA), ("b", c3EntryB)]] "a" "b"
    "def c(x):\n    return b(x)" "c" c3EntryA c3EntryB (by decide)
    (by simp [findInMaps, dictFind, c3EntryA])
    (by simp [findInMaps, dictFind, c3EntryB])
    (by decide) (by decide)).1

/-- C4: dependency resolution is a total function (the visited check
precedes expansion); over any tables and root list the visited names are
pairwise distinct and the accumulation list holds the code of each
visited name once, in order; every transitively required skill is
visited; and on the two-cycle a <-> b both skills are included exactly
once. -/
theorem append_dependencies_cycle :
    (∀ (maps : List (List (String × Entry))) (queue : List String),
       (collectDeps maps queue [] []).1.Nodup ∧
       (collectDeps maps queue [] []).2 =
         (collectDeps maps queue [] []).1.filterMap
           (fun q => (findInMaps maps q).map Entry.code) ∧
       (∀ q, ReachesSkill maps queue q → q ∈ (collectDeps maps queue [] []).1)) ∧
    (∀ (aN bN cand pn : String) (eA eB : Entry), aN ≠ bN →
       eA.dependencies = some [bN] → eB.dependencies = some [aN] →
       collectDeps [[(aN, eA), (bN, eB)]] [aN] [] [] =
         ([aN, bN], [eA.code, eB.code]) ∧
       append_dependencies
           { program_code := cand, program_name := pn, dependencies := [aN],
             full_code := none } [[(aN, eA), (bN, eB)]] =
         (String.intercalate "\n\n" [eB.code, eA.code, cand],
          { program_code := cand, program_name := pn, dependencies := [],
            full_code := some (String.intercalate "\n\n"
              [eB.code, eA.code, cand]) })) := by
  constructor
  · intro maps queue
    refine ⟨collectDeps_nodup maps queue [] [] (by simp),
      collectDeps_acc maps queue [] [] (by simp),
      fun q h => collectDeps_reaches_complete maps queue q h⟩
  · intro aN bN cand pn eA eB hab hdA hdB
    have hfa : findInMaps [[(aN, eA), (bN, eB)]] aN = some eA := by
      simp [findInMaps, dictFind]
    have hfb : findInMaps [[(aN, eA), (bN, eB)]] bN = some eB := by
      simp [findInMaps, dictFind, hab]
    have h1 : collectDeps [[(aN, eA), (bN, eB)]] [aN] [] [] =
        ([aN, bN], [eA.code, eB.code]) := by
      rw [collectDeps_hit _ aN [] [] [] eA (by simp) hfa, hdA]
      simp only [Option.getD_some, List.nil_append]
      rw [collectDeps_hit _ bN [] [aN] [eA.code] eB (by simp [Ne.symm hab]) hfb,
        hdB]
      simp only [Option.getD_some, List.nil_append, List.append_nil,
        List.singleton_append]
      rw [collectDeps_visited _ aN [] [aN, bN] _ (by simp), collectDeps_nil]
    refine ⟨h1, ?_⟩
    unfold append_dependencies
    rw [h1]
    simp

def c4EntryA : Entry :=
  { code := "def a(x):\n    return b(x)", dependencies := some ["b"], task := "ta",
    description := "da" }

def c4EntryB : Entry :=
  { code := "def b(x):\n    return a(x)", dependencies := some ["a"], task := "tb",
    description := "db" }

/-- Witness for C4 on the concrete two-cycle. -/
theorem append_dependencies_cycle_witness :
    collectDeps [[("a", c4EntryA), ("b", c4EntryB)]] ["a"] [] [] =
      (["a", "b"], [c4EntryA.code, c4EntryB.code]) ∧
    append_dependencies
        { program_code := "def c(x):\n    return a(x)", program_name := "c",
          dependencies := ["a"], full_code := none }
        [[("a", c4EntryA), ("b", c4EntryB)]] =
      (String.intercalate "\n\n"
         [c4EntryB.code, c4EntryA.code, "def c(x):\n    return a(x)"],
       { program_code := "def c(x):\n    return a(x)", program_name := "c",
         dependencies := [],
         full_code := some (String.intercalate "\n\n"
           [c4EntryB.code, c4EntryA.code, "def c(x):\n    return a(x)"]) }) :=
  append_dependencies_cycle.2 "a" "b" "def c(x):\n    return a(x)" "c"
    c4EntryA c4EntryB (by decide) (by decide) (by decide)

/-- C10: append_dependencies drains the dependency list of the parsed
result to empty and adds full_code (in-place mutation modelled by
explicit state passing); archiving that same record via add_skill stores
an entry whose recorded dependency list is empty; and a later resolution
that hits such an entry enqueues no transitive dependencies through it. -/
theorem append_dependencies_drains :
    (∀ (p : ParsedResult) (maps : List (List (String × Entry))),
       (append_dependencies p maps).2.dependencies = [] ∧
       (append_dependencies p maps).2.full_code =
         some (append_dependencies p maps).1 ∧
       (append_dependencies p maps).2.program_code = p.program_code) ∧
    (∀ (m : List (String × Entry)) (p : ParsedResult)
       (maps : List (List (String × Entry))) (desc task : String),
       ∃ final e2,
         (add_skill m (append_dependencies p maps).2 desc task).returned =
           some final ∧
         dictFind (add_skill m (append_dependencies p maps).2 desc task).store
           final = some e2 ∧
         e2.dependencies = some []) ∧
    (∀ (maps : List (List (String × Entry))) (n cand pn : String)
       (fc : Option String) (e : Entry),
       findInMaps maps n = some e → e.dependencies = some [] →
       append_dependencies
           { program_code := cand, program_name := pn, dependencies := [n],
             full_code := fc } maps =
         (String.intercalate "\n\n" [e.code, cand],
          { program_code := cand, program_name := pn, dependencies := [],
            full_code := some (String.intercalate "\n\n" [e.code, cand]) })) := by
  refine ⟨?_, ?_, ?_⟩
  · intro p maps
    exact ⟨rfl, rfl, rfl⟩
  · intro m p maps desc task
    obtain ⟨final, h1, h2⟩ := add_code_false_stored m
      (append_dependencies p maps).2.program_name
      (append_dependencies p maps).2.program_code
      (some (append_dependencies p maps).2.dependencies) task desc
    exact ⟨final, _, h1, h2, rfl⟩
  · intro maps n cand pn fc e hf hdeps
    have h1 : collectDeps maps [n] [] [] = ([n], [e.code]) := by
      rw [collectDeps_hit maps n [] [] [] e (by simp) hf, hdeps]
      simp only [Option.getD_some, List.nil_append, List.append_nil]
      rw [collectDeps_nil]
    unfold append_dependencies
    rw [h1]
    simp

def c10Entry : Entry :=
  { code := "def s(x):\n    return x", dependencies := some [], task := "ts",
    description := "ds" }

/-- Witness for C10: a concrete resolution through a stored skill with a
drained dependency list enqueues nothing. -/
theorem append_dependencies_drains_witness :
    append_dependencies
        { program_code := "def c(x):\n    return s(x)", program_name := "c",
          dependencies := ["s"], full_code := none } [[("s", c10Entry)]] =
      (String.intercalate "\n\n" [c10Entry.code, "def c(x):\n    return s(x)"],
       { program_code := "def c(x):\n    return s(x)", program_name := "c",
         dependencies := [],
         full_code := some (String.intercalate "\n\n"
           [c10Entry.code, "def c(x):\n    return s(x)"]) }) :=
  append_dependencies_drains.2.2 [[("s", c10Entry)]] "s"
    "def c(x):\n    return s(x)" "c" none c10Entry
    (by simp [findInMaps, dictFind, c10Entry]) (by decide)

/-! ## Consistency gates at load time

voyager_procedural_mem.py lines 39-45 and base_curriculum.py lines
96-102: after loading the persisted metadata map, the count of the
similarity index (external state, passed in as a number) must equal the
size of the map; a mismatch raises AssertionError (modelled as
Except.error) before any further operation on the store, and nothing is
repaired. -/

def loadSkillManager (vectordbCount : Nat) (entries : List (String × Entry)) :
    Except String (List (String × Entry)) :=
  if vectordbCount = entries.length then Except.ok entries
  else Except.error "Skill Manager vectordb is not synced with entries.json"

structure CurriculumCkpt where
  completed_tasks : List String
  failed_tasks : List String
  qa_cache : List (String × String)
deriving Repr, DecidableEq

/-- load_prev: load the two ledgers and the QA cache, then assert that
the question index count equals the cache size. -/
def load_prev (vectordbCount : Nat) (ckpt : CurriculumCkpt) :
    Except String CurriculumCkpt :=
  if vectordbCount = ckpt.qa_cache.length then Except.ok ckpt
  else Except.error "qa cache question vectordb is not synced with qa_cache.json"

/-- C5: loading either persisted store with an index count that differs
from the metadata map count fails with the fatal consistency error, and
a load can only succeed when the counts match, returning the data
unmodified (never auto-repaired). -/
theorem load_consistency_gate :
    (∀ (c : Nat) (m : List (String × Entry)), c ≠ m.length →
       loadSkillManager c m =
         Except.error "Skill Manager vectordb is not synced with entries.json") ∧
    (∀ (c : Nat) (m : List (String × Entry)) (r : List (String × Entry)),
       loadSkillManager c m = Except.ok r → c = m.length ∧ r = m) ∧
    (∀ (c : Nat) (ck : CurriculumCkpt), c ≠ ck.qa_cache.length →
       load_prev c ck =
         Except.error "qa cache question vectordb is not synced with qa_cache.json") ∧
    (∀ (c : Nat) (ck : CurriculumCkpt) (r : CurriculumCkpt),
       load_prev c ck = Except.ok r → c = ck.qa_cache.length ∧ r = ck) := by
  refine ⟨?_, ?_, ?_, ?_⟩
  · intro c m h
    unfold loadSkillManager
    rw [if_neg h]
  · intro c m r h
    unfold loadSkillManager at h
    by_cases hc : c = m.length
    · rw [if_pos hc] at h
      injection h with h2
      exact ⟨hc, h2.symm⟩
    · rw [if_neg hc] at h
      cases h
  · intro c ck h
    unfold load_prev
    rw [if_neg h]
  · intro c ck r h
    unfold load_prev at h
    by_cases hc : c = ck.qa_cache.length
    · rw [if_pos hc] at h
      injection h with h2
      exact ⟨hc, h2.symm⟩
    · rw [if_neg hc] at h
      cases h

def c5Entries : List (String × Entry) :=
  [("f1", c1Entry), ("f2", c1Entry), ("f3", c1Entry), ("f4", c1Entry)]

def c5Ckpt : CurriculumCkpt :=
  { completed_tasks := [], failed_tasks := [],
    qa_cache := [("q1", "a1"), ("q2", "a2"), ("q3", "a3"), ("q4", "a4")] }

/-- Witness for C5: an index of 5 entries against a map of 4 entries is
rejected on both stores. -/
theorem load_consistency_gate_witness :
    loadSkillManager 5 c5Entries =
      Except.error "Skill Manager vectordb is not synced with entries.json" ∧
    load_prev 5 c5Ckpt =
      Except.error "qa cache question vectordb is not synced with qa_cache.json" :=
  ⟨load_consistency_gate.1 5 c5Entries (by decide),
   load_consistency_gate.2.2.1 5 c5Ckpt (by decide)⟩

/-! ## Task ledger cleanup: base_curriculum.clean_up_tasks

clean_up_tasks deduplicates the completed list keeping first occurrences
in order, then removes from the failed list every occurrence of every
updated completed task (a while loop around list.remove, which removes
the first occurrence each time). update_exploration_progress appends the
task to the relevant ledger and runs the cleanup. -/

/-- The inner while loop: while task in failed, failed.remove(task).
Each pass removes the first occurrence; fuel bounded by the list length
is exact because each pass removes one occurrence. -/
def removeAllAux (x : String) : Nat → List String → List String
  | 0, l => l
  | fuel + 1, l => if x ∈ l then removeAllAux x fuel (l.erase x) else l

def removeAllOccurrences (x : String) (l : List String) : List String :=
  removeAllAux x l.length l

def clean_up_tasks (completed failed : List String) :
    List String × List String :=
  let updated_completed := dedupKeepFirst completed
  let updated_failed :=
    updated_completed.foldl (fun fl task => removeAllOccurrences task fl) failed
  (updated_completed, updated_failed)

def update_exploration_progress (completed failed : List String) (task : String)
    (success : Bool) : List String × List String :=
  if success then clean_up_tasks (completed ++ [task]) failed
  else clean_up_tasks completed (failed ++ [task])

theorem filter_ne_erase (x : String) (l : List String) :
    (l.erase x).filter (fun y => decide (y ≠ x)) =
      l.filter (fun y => decide (y ≠ x)) := by
  induction l with
  | nil => simp
  | cons c cs ih =>
    rw [List.erase_cons]
    by_cases hc : c = x
    · simp [hc]
    · have hbeq : ¬((c == x) = true) := by simpa using hc
      rw [if_neg hbeq, List.filter_cons, List.filter_cons]
      have h1 : decide (c ≠ x) = true := by simpa using hc
      rw [h1, if_pos rfl, if_pos rfl, ih]

theorem removeAllAux_eq_filter (x : String) (fuel : Nat) (l : List String)
    (h : l.count x ≤ fuel) :
    removeAllAux x fuel l = l.filter (fun y => decide (y ≠ x)) := by
  induction fuel generalizing l with
  | zero =>
    have hx : x ∉ l := by
      intro hmem
      have := List.count_pos_iff.mpr hmem
      omega
    rw [removeAllAux]
    rw [List.filter_eq_self.mpr]
    intro y hy
    simp only [decide_eq_true_eq]
    intro hyx
    exact hx (hyx ▸ hy)
  | succ f ih =>
    rw [removeAllAux]
    by_cases hx : x ∈ l
    · rw [if_pos hx]
      have hcount : (l.erase x).count x ≤ f := by
        rw [List.count_erase_self]
        have := List.count_pos_iff.mpr hx
        omega
      rw [ih (l.erase x) hcount]
      exact filter_ne_erase x l
    · rw [if_neg hx]
      rw [List.filter_eq_self.mpr]
      intro y hy
      simp only [decide_eq_true_eq]
      intro hyx
      exact hx (hyx ▸ hy)

theorem removeAllOccurrences_eq_filter (x : String) (l : List String) :
    removeAllOccurrences x l = l.filter (fun y => decide (y ≠ x)) :=
  removeAllAux_eq_filter x l.length l (List.count_le_length x l)

theorem foldl_removeAll_eq_filter (ts : List String) (fl : List String) :
    ts.foldl (fun fl task => removeAllOccurrences task fl) fl =
      fl.filter (fun y => decide (y ∉ ts)) := by
  induction ts generalizing fl with
  | nil =>
    simp only [List.foldl_nil]
    rw [List.filter_eq_self.mpr]
    simp
  | cons t rest ih =>
    simp only [List.foldl_cons]
    rw [ih (removeAllOccurrences t fl), removeAllOccurrences_eq_filter,
      List.filter_filter]
    apply List.filter_congr
    intro y _
    by_cases hyt : y = t
    · simp [hyt]
    · by_cases hyr : y ∈ rest
      · simp [hyt, hyr]
      · simp [hyt, hyr]

theorem clean_up_tasks_spec (completed failed : List String) :
    clean_up_tasks completed failed =
      (dedupKeepFirst completed,
       failed.filter (fun y => decide (y ∉ dedupKeepFirst completed))) := by
  show (dedupKeepFirst completed,
    (dedupKeepFirst completed).foldl
      (fun fl task => removeAllOccurrences task fl) failed) = _
  rw [foldl_removeAll_eq_filter]

theorem clean_up_tasks_invariants (c f : List String) :
    (clean_up_tasks c f).1.Nodup ∧
    (clean_up_tasks c f).1.Sublist c ∧
    (∀ t, t ∈ (clean_up_tasks c f).1 ↔ t ∈ c) ∧
    (clean_up_tasks c f).2 =
      f.filter (fun y => decide (y ∉ (clean_up_tasks c f).1)) ∧
    (∀ t ∈ (clean_up_tasks c f).1, t ∉ (clean_up_tasks c f).2) ∧
    (clean_up_tasks c f).1 = dedupKeepFirst c ∧
    (clean_up_tasks c f).1.Pairwise (fun x y => c.indexOf x < c.indexOf y) := by
  rw [clean_up_tasks_spec]
  refine ⟨dedupKeepFirst_nodup c, dedupKeepFirst_sublist c,
    fun t => dedupKeepFirst_mem c t, rfl, ?_, rfl,
    dedupKeepFirst_pairwise_indexOf c⟩
  intro t ht hmem
  have := List.of_mem_filter hmem
  simp only [decide_eq_true_eq] at this
  exact this ht

/-- C6: after every record-outcome call the completed ledger has no
duplicates, with the first occurrence of each task kept and relative
order preserved: the result is a duplicate-free sublist of the appended
input with the same members, it equals the left-to-right keep-first
deduplication of that input, and its elements stand pairwise in
first-occurrence order (the index of the first occurrence in the input
strictly increases along the result, which excludes any keep-last
dedup); the failed ledger is the appended input filtered of every
completed entry (order preserved), so no completed entry remains in
failed. Concrete instances: completed [T1, T1, T2] with failed [T1, T3]
cleans up to ([T1, T2], [T3]); completed [a, b, a] cleans up to [a, b],
the first-occurrence order (a keep-last dedup would give [b, a]). -/
theorem update_exploration_progress_invariants
    (completed failed : List String) (task : String) (success : Bool) :
    ((update_exploration_progress completed failed task success).1.Nodup ∧
     (update_exploration_progress completed failed task success).1.Sublist
       (if success then completed ++ [task] else completed) ∧
     (∀ t, t ∈ (update_exploration_progress completed failed task success).1 ↔
       t ∈ (if success then completed ++ [task] else completed)) ∧
     (update_exploration_progress completed failed task success).2 =
       (if success then failed else failed ++ [task]).filter
         (fun y => decide
           (y ∉ (update_exploration_progress completed failed task success).1)) ∧
     (∀ t ∈ (update_exploration_progress completed failed task success).1,
       t ∉ (update_exploration_progress completed failed task success).2) ∧
     (update_exploration_progress completed failed task success).1 =
       dedupKeepFirst (if success then completed ++ [task] else completed) ∧
     (update_exploration_progress completed failed task success).1.Pairwise
       (fun x y =>
         (if success then completed ++ [task] else completed).indexOf x <
         (if success then completed ++ [task] else completed).indexOf y)) ∧
    update_exploration_progress ["T1", "T1"] ["T1", "T3"] "T2" true =
      (["T1", "T2"], ["T3"]) ∧
    update_exploration_progress ["a", "b"] [] "a" true = (["a", "b"], []) := by
  refine ⟨?_, ?_, ?_⟩
  · cases success with
    | false => exact clean_up_tasks_invariants completed (failed ++ [task])
    | true => exact clean_up_tasks_invariants (completed ++ [task]) failed
  · rw [show update_exploration_progress ["T1", "T1"] ["T1", "T3"] "T2" true =
        clean_up_tasks (["T1", "T1"] ++ ["T2"]) ["T1", "T3"] from rfl,
      clean_up_tasks_spec]
    decide
  · rw [show update_exploration_progress ["a", "b"] [] "a" true =
        clean_up_tasks (["a", "b"] ++ ["a"]) [] from rfl,
      clean_up_tasks_spec]
    decide

/-- Witness for C6: the concrete ledger instances, via the theorem; the
second instance separates keep-first from keep-last deduplication. -/
theorem update_exploration_progress_invariants_witness :
    (update_exploration_progress ["T1", "T1"] ["T1", "T3"] "T2" true).1.Nodup ∧
    update_exploration_progress ["T1", "T1"] ["T1", "T3"] "T2" true =
      (["T1", "T2"], ["T3"]) ∧
    update_exploration_progress ["a", "b"] [] "a" true = (["a", "b"], []) :=
  ⟨(update_exploration_progress_invariants ["T1", "T1"] ["T1", "T3"] "T2" true).1.1,
   (update_exploration_progress_invariants ["T1", "T1"] ["T1", "T3"] "T2" true).2.1,
   (update_exploration_progress_invariants ["a", "b"] [] "a" true).2.2⟩

/-! ## QA cache: voyager_curriculum.run_qa and base_curriculum.get_task_context

The question-similarity index is the external Chroma store: its state is
the list of stored questions, its nearest-neighbour search is an
explicit function argument returning the nearest stored question with
its L2 distance (a rational stands in for the float score; the threshold
0.05 becomes 5/100). The answering oracle is an explicit function. The
oracleCalls field counts oracle invocations of the operation. -/

structure QAState where
  qa_cache : List (String × String)
  vdbQuestions : List String
deriving Repr, DecidableEq

structure QAStepResult where
  question : String
  answer : String
  state : QAState
  oracleCalls : Nat
deriving Repr, DecidableEq

/-- The fallthrough tail of the run_qa loop body (lines 178-185): invoke
the oracle, assert the question is not already an exact key, then append
the pair to both the answer map and the question index. -/
def run_qa_fallback (oracle : String → String) (st : QAState)
    (question : String) : Except String QAStepResult :=
  let answer := oracle question
  match dictFind st.qa_cache question with
  | some _ => Except.error "assert question not in self.qa_cache"
  | none =>
    Except.ok
      { question := question, answer := answer,
        state :=
          { qa_cache := st.qa_cache ++ [(question, answer)],
            vdbQuestions := st.vdbQuestions ++ [question] },
        oracleCalls := 1 }

/-- One iteration of the question loop of run_qa (voyager_curriculum.py
lines 166-185) for a single question: consult the similarity index when
it is non-empty; a nearest neighbour with distance below 0.05 is served
from the cache (asserting it is a key); otherwise fall through to the
oracle. There is no exact-key check before the similarity search. -/
def run_qa_step (search : String → Option (String × Rat))
    (oracle : String → String) (st : QAState) (question : String) :
    Except String QAStepResult :=
  if st.vdbQuestions.length > 0 then
    match search question with
    | some (question_cached, score) =>
      if score < 5 / 100 then
        match dictFind st.qa_cache question_cached with
        | some answer_cached =>
          Except.ok
            { question := question_cached, answer := answer_cached,
              state := st, oracleCalls := 0 }
        | none => Except.error "assert question_cached in self.qa_cache"
      else run_qa_fallback oracle st question
    | none => run_qa_fallback oracle st question
  else run_qa_fallback oracle st question

def task_context_question (task : String) : String :=
  "Explain at a conceptual level, how to accomplish the below task in Python programming?\n"
    ++ task

structure TaskContextResult where
  context : String
  state : QAState
  oracleCalls : Nat
deriving Repr, DecidableEq

/-- get_task_context (base_curriculum.py lines 171-191): exact-key
memoization only; on a miss the oracle is invoked and the pair is
appended to both the answer map and the question index. The similarity
index is never consulted for lookup here. -/
def get_task_context (oracle : String → String) (st : QAState) (task : String) :
    TaskContextResult :=
  match dictFind st.qa_cache (task_context_question task) with
  | some answer =>
    { context := "Rough plan to accomplish the task (can be wrong): \n"
        ++ answer ++ "\n",
      state := st, oracleCalls := 0 }
  | none =>
    { context := "Rough plan to accomplish the task (can be wrong): \n"
        ++ oracle (task_context_question task) ++ "\n",
      state := { qa_cache := st.qa_cache ++
                   [(task_context_question task,
                     oracle (task_context_question task))],
                 vdbQuestions := st.vdbQuestions ++ [task_context_question task] },
      oracleCalls := 1 }

def c7CachedQuestion : String := task_context_question "task zero"

def c7State : QAState :=
  { qa_cache := [(c7CachedQuestion, "a0")], vdbQuestions := [c7CachedQuestion] }

def c7Search : String → Option (String × Rat) :=
  fun _ => some (c7CachedQuestion, 1 / 100)

def c7Oracle : String → String := fun _ => "fresh oracle answer"

/-- Counterexample to C7 as stated: for the memoized task-context
operation, a question that is not an exact key whose nearest indexed
neighbour lies within the threshold (distance 1/100 < 5/100 per the
index search) still triggers an oracle call and a cache write — the
neighbour answer is not returned and the cache does not stay unchanged,
because get_task_context never consults the similarity index. -/
theorem qa_memoization_counterexample :
    c7Search (task_context_question "task one") =
      some (c7CachedQuestion, 1 / 100) ∧
    ((1 : Rat) / 100 < 5 / 100) ∧
    dictFind c7State.qa_cache (task_context_question "task one") = none ∧
    (get_task_context c7Oracle c7State "task one").oracleCalls = 1 ∧
    (get_task_context c7Oracle c7State "task one").state ≠ c7State := by
  refine ⟨rfl, by norm_num, by decide, ?_, ?_⟩
  · decide
  · decide

/-- C7 (amended): the exact-key memoization and the similarity-based
suppression live in two separate operations. get_task_context checks
only exact keys: a hit returns the stored answer with no oracle call and
no state change; a miss always invokes the oracle once and appends the
pair to both the map and the index. run_qa_step checks only the
similarity index: a nearest neighbour within the threshold returns that
neighbour answer from the cache with no oracle call and no state change;
otherwise the oracle is invoked once and the pair is appended to both,
provided the question was not already an exact key (else an internal
assertion fails instead of returning the stored answer). -/
theorem qa_memoization_behaviour :
    (∀ (oracle : String → String) (st : QAState) (task answer : String),
       dictFind st.qa_cache (task_context_question task) = some answer →
       get_task_context oracle st task =
         { context := "Rough plan to accomplish the task (can be wrong): \n"
             ++ answer ++ "\n",
           state := st, oracleCalls := 0 }) ∧
    (∀ (oracle : String → String) (st : QAState) (task : String),
       dictFind st.qa_cache (task_context_question task) = none →
       get_task_context oracle st task =
         { context := "Rough plan to accomplish the task (can be wrong): \n"
             ++ oracle (task_context_question task) ++ "\n",
           state := { qa_cache := st.qa_cache ++
                        [(task_context_question task,
                          oracle (task_context_question task))],
                      vdbQuestions := st.vdbQuestions ++
                        [task_context_question task] },
           oracleCalls := 1 }) ∧
    (∀ (search : String → Option (String × Rat)) (oracle : String → String)
       (st : QAState) (question qc ac : String) (d : Rat),
       st.vdbQuestions ≠ [] → search question = some (qc, d) → d < 5 / 100 →
       dictFind st.qa_cache qc = some ac →
       run_qa_step search oracle st question =
         Except.ok
           { question := qc, answer := ac, state := st, oracleCalls := 0 }) ∧
    (∀ (search : String → Option (String × Rat)) (oracle : String → String)
       (st : QAState) (question qc : String) (d : Rat),
       st.vdbQuestions ≠ [] → search question = some (qc, d) → ¬(d < 5 / 100) →
       dictFind st.qa_cache question = none →
       run_qa_step search oracle st question =
         Except.ok
           { question := question, answer := oracle question,
             state :=
               { qa_cache := st.qa_cache ++ [(question, oracle question)],
                 vdbQuestions := st.vdbQuestions ++ [question] },
             oracleCalls := 1 }) ∧
    (∀ (search : String → Option (String × Rat)) (oracle : String → String)
       (st : QAState) (question qc a : String) (d : Rat),
       st.vdbQuestions ≠ [] → search question = some (qc, d) → ¬(d < 5 / 100) →
       dictFind st.qa_cache question = some a →
       run_qa_step search oracle st question =
         Except.error "assert question not in self.qa_cache") := by
  refine ⟨?_, ?_, ?_, ?_, ?_⟩
  · intro oracle st task answer h
    unfold get_task_context
    rw [h]
  · intro oracle st task h
    unfold get_task_context
    rw [h]
  · intro search oracle st question qc ac d hne hs hd hfind
    unfold run_qa_step
    rw [if_pos (by simpa [List.length_pos] using hne), hs]
    simp only [if_pos hd]
    rw [hfind]
  · intro search oracle st question qc d hne hs hd hfind
    unfold run_qa_step
    rw [if_pos (by simpa [List.length_pos] using hne), hs]
    simp only [if_neg hd]
    unfold run_qa_fallback
    rw [hfind]
  · intro search oracle st question qc a d hne hs hd hfind
    unfold run_qa_step
    rw [if_pos (by simpa [List.length_pos] using hne), hs]
    simp only [if_neg hd]
    unfold run_qa_fallback
    rw [hfind]

def c7WitnessState : QAState :=
  { qa_cache := [("Q0", "A0")], vdbQuestions := ["Q0"] }

def c7WitnessSearch : String → Option (String × Rat) :=
  fun _ => some ("Q0", 1 / 100)

/-- Witness for the amended C7: a near-duplicate question is served from
the cache by run_qa_step with no oracle call and no state change. -/
theorem qa_memoization_behaviour_witness :
    run_qa_step c7WitnessSearch c7Oracle c7WitnessState "Q0 paraphrased" =
      Except.ok
        { question := "Q0", answer := "A0", state := c7WitnessState,
          oracleCalls := 0 } :=
  qa_memoization_behaviour.2.2.1 c7WitnessSearch c7Oracle c7WitnessState
    "Q0 paraphrased" "Q0" "A0" (1 / 100) (by decide) rfl (by norm_num) (by decide)

/-! ## Code analyzer: utils/code_parse.py, extract_from_ast

A small Python AST covering the node kinds the analyzer inspects:
function definitions, the two import statement forms, expression and
return statements; expressions with calls, plain names, attribute access
and constants. ast.walk enumerates every node of a subtree; traversal
order does not matter because the outputs are sets (modelled as lists
with final deduplication). dir of the builtins module is environment
state, passed in as a list. The external visit_imports helper (module
whitelist checking, from agent_expt_suite) does not affect the
dependency set and is elided. -/

mutual
inductive PyExpr where
  | nameE (id : String)
  | call (func : PyExpr) (args : PyExprList)
  | attribute (value : PyExpr) (attr : String)
  | constant
inductive PyExprList where
  | nil
  | cons (e : PyExpr) (es : PyExprList)
end

mutual
inductive PyStmt where
  | functionDef (name : String) (params : List String) (body : PyStmtList)
  | importPlain (names : List (String × Option String))
  | importFrom (moduleName : String) (names : List (String × Option String))
  | exprS (e : PyExpr)
  | returnS (e : Option PyExpr)
inductive PyStmtList where
  | nil
  | cons (s : PyStmt) (ss : PyStmtList)
end

/-! The ids of call expressions whose callee is a plain name, over all
nodes of an expression (the inner walk of extract_info_from_fn). -/
mutual
def exprCallIds : PyExpr → List String
  | .nameE _ => []
  | .constant => []
  | .attribute v _ => exprCallIds v
  | .call f args =>
    (match f with
     | .nameE i => [i]
     | _ => []) ++ exprCallIds f ++ exprListCallIds args
def exprListCallIds : PyExprList → List String
  | .nil => []
  | .cons e es => exprCallIds e ++ exprListCallIds es
end

/-! All call-with-name ids in the subtree of a statement. -/
mutual
def stmtCallIds : PyStmt → List String
  | .functionDef _ _ body => stmtListCallIds body
  | .importPlain _ => []
  | .importFrom _ _ => []
  | .exprS e => exprCallIds e
  | .returnS none => []
  | .returnS (some e) => exprCallIds e
def stmtListCallIds : PyStmtList → List String
  | .nil => []
  | .cons s ss => stmtCallIds s ++ stmtListCallIds ss
end

/-! Call-with-name ids that occur inside at least one function
definition: ast.walk visits every FunctionDef node (top level or
nested), and extract_info_from_fn walks each of them; a nested function
is scanned both as part of its parent and on its own, which a set
absorbs. -/
mutual
def stmtFnScopedCallIds : PyStmt → List String
  | .functionDef _ _ body => stmtListCallIds body ++ stmtListFnScopedCallIds body
  | .importPlain _ => []
  | .importFrom _ _ => []
  | .exprS _ => []
  | .returnS _ => []
def stmtListFnScopedCallIds : PyStmtList → List String
  | .nil => []
  | .cons s ss => stmtFnScopedCallIds s ++ stmtListFnScopedCallIds ss
end

/-! Names of every function defined anywhere in the tree. -/
mutual
def stmtFnNames : PyStmt → List String
  | .functionDef n _ body => n :: stmtListFnNames body
  | .importPlain _ => []
  | .importFrom _ _ => []
  | .exprS _ => []
  | .returnS _ => []
def stmtListFnNames : PyStmtList → List String
  | .nil => []
  | .cons s ss => stmtFnNames s ++ stmtListFnNames ss
end

/-! The imported_fns list of extract_info_from_imports: only ImportFrom
statements contribute, and only the original (pre-alias) name of each
alias clause (alias.name, not alias.asname). -/
mutual
def stmtImportFromNames : PyStmt → List String
  | .functionDef _ _ body => stmtListImportFromNames body
  | .importPlain _ => []
  | .importFrom _ names => names.map Prod.fst
  | .exprS _ => []
  | .returnS _ => []
def stmtListImportFromNames : PyStmtList → List String
  | .nil => []
  | .cons s ss => stmtImportFromNames s ++ stmtListImportFromNames ss
end

/-! Formalisation of the claim phrase: the names a Python import
statement binds in the namespace — the alias if present, else the
imported name itself (for the plain import form without dots, the module
name). Used only to state C8; the analyzer does not compute this. -/
mutual
def stmtImportBoundNames : PyStmt → List String
  | .functionDef _ _ body => stmtListImportBoundNames body
  | .importPlain names => names.map (fun p => p.2.getD p.1)
  | .importFrom _ names => names.map (fun p => p.2.getD p.1)
  | .exprS _ => []
  | .returnS _ => []
def stmtListImportBoundNames : PyStmtList → List String
  | .nil => []
  | .cons s ss => stmtImportBoundNames s ++ stmtListImportBoundNames ss
end

structure ExtractResult where
  functions : List String
  dependencies : List String
  imported_fns : List String
deriving Repr, DecidableEq

/-- extract_from_ast (lines 79-116) for an already parsed module body:
collect call ids occurring inside function definitions, keeping those
not named by dir(builtins); then discard every locally defined function
name and every from-import original name. -/
def extract_from_ast (builtins : List String) (moduleBody : PyStmtList) :
    ExtractResult :=
  { functions := stmtListFnNames moduleBody,
    imported_fns := stmtListImportFromNames moduleBody,
    dependencies :=
      (dedupKeepFirst ((stmtListFnScopedCallIds moduleBody).filter
          (fun i => decide (i ∉ builtins)))).filter
        (fun i => decide (i ∉
          stmtListFnNames moduleBody ++ stmtListImportFromNames moduleBody)) }

def c8Builtins : List String := ["abs", "len", "print", "range"]

def c8Module : PyStmtList :=
  .cons (.importPlain [("m", none)])
    (.cons (.functionDef "h" []
      (.cons (.exprS (.call (.nameE "m") .nil)) .nil)) .nil)

/-- Counterexample to C8 as stated: in a module that imports m with a
plain import statement and calls m() inside a function, the analyzer
keeps m in the dependency set even though m is a name bound by an
importing statement of the text; only from-import original names are
discarded. -/
theorem extract_from_ast_counterexample :
    (extract_from_ast c8Builtins c8Module).dependencies = ["m"] ∧
    "m" ∈ stmtImportBoundNames (.importPlain [("m", none)]) ∧
    "m" ∈ stmtListImportBoundNames c8Module := by
  refine ⟨by decide, by decide, by decide⟩

/-- C8 (amended): the dependency set contains no builtin identifier, no
name of a function defined anywhere in the text (so recursion and
private helpers are never flagged), and no original name listed in a
from-import statement; names bound by plain import statements or by
as-aliases are not removed. -/
theorem extract_from_ast_dependency_filter
    (builtins : List String) (moduleBody : PyStmtList) (d : String)
    (hd : d ∈ (extract_from_ast builtins moduleBody).dependencies) :
    d ∉ builtins ∧ d ∉ stmtListFnNames moduleBody ∧
    d ∉ stmtListImportFromNames moduleBody := by
  have h1 := List.of_mem_filter hd
  have h2 := List.mem_of_mem_filter hd
  have h3 := (dedupKeepFirst_mem _ d).mp h2
  have h4 := List.of_mem_filter h3
  simp only [decide_eq_true_eq, List.mem_append, not_or] at h1 h4
  exact ⟨h4, h1.1, h1.2⟩

def c8WitnessModule : PyStmtList :=
  .cons (.functionDef "h" []
    (.cons (.exprS (.call (.nameE "k") .nil)) .nil)) .nil

/-- Witness for the amended C8: the analyzer flags the unresolved name k
and the filters hold at it. -/
theorem extract_from_ast_dependency_filter_witness :
    "k" ∈ (extract_from_ast c8Builtins c8WitnessModule).dependencies ∧
    "k" ∉ c8Builtins ∧ "k" ∉ stmtListFnNames c8WitnessModule ∧
    "k" ∉ stmtListImportFromNames c8WitnessModule :=
  ⟨by decide,
   extract_from_ast_dependency_filter c8Builtins c8WitnessModule "k" (by decide)⟩

/-! ## Rollout controller: cog_arch/agents/voyager_agent.py, rollout

The retrieval, generation, execution and critic collaborators are
external; each can raise (the error case of Except carries the Python
exception text). The controller state holds the loop locals; a raise
inside a collaborator leaves the locals at the values assigned before
the call, so an attempt returns either the updated state with a break
flag, or the exception together with the state at the moment of the
raise. -/

structure CriticOut where
  success : Bool
  critique : String
  reasoning : String
deriving Repr, DecidableEq

structure RolloutState where
  obs : String
  reward : Bool
  parsed_result : Option ParsedResult
  code : String
  critic_out : CriticOut
deriving Repr, DecidableEq

structure Collaborators where
  retrieve : Nat → RolloutState → Except String Unit
  gen_code : Nat → RolloutState → Except String (Option ParsedResult)
  env_step : Nat → String → Except String (String × Bool)
  critic : Nat → String → Bool → String → Except String CriticOut

structure RolloutFlags where
  eval_later : Bool
  train : Bool
  use_public_tests : Bool
deriving Repr, DecidableEq

/-- One iteration of the attempt loop (lines 113-135). The Bool of the
ok result is the break flag: set on the eval-later shortcut and on a
successful critique. A falsy generation result skips the rest of the
body. -/
def rollout_attempt (co : Collaborators) (maps : List (List (String × Entry)))
    (flags : RolloutFlags) (i : Nat) (st : RolloutState) :
    Except (String × RolloutState) (RolloutState × Bool) :=
  match co.retrieve i st with
  | .error e => .error (e, st)
  | .ok _ =>
    match co.gen_code i st with
    | .error e => .error (e, st)
    | .ok none => .ok (st, false)
    | .ok (some parsed) =>
      let st1 : RolloutState :=
        { st with parsed_result := some (append_dependencies parsed maps).2,
                  code := parsed.program_code }
      if flags.eval_later && !flags.train && !flags.use_public_tests then
        .ok (st1, true)
      else
        match co.env_step i (append_dependencies parsed maps).1 with
        | .error e => .error (e, st1)
        | .ok (obs, reward) =>
          let st2 : RolloutState := { st1 with obs := obs, reward := reward }
          match co.critic i obs reward parsed.program_code with
          | .error e => .error (e, st2)
          | .ok critic_out =>
            .ok ({ st2 with critic_out := critic_out }, critic_out.success)

/-- The for loop over attempts: stop on break, propagate a raise
together with the state at the raise. -/
def rollout_loop (co : Collaborators) (maps : List (List (String × Entry)))
    (flags : RolloutFlags) : Nat → Nat → RolloutState →
    Except (String × RolloutState) RolloutState
  | _, 0, st => .ok st
  | i, n + 1, st =>
    match rollout_attempt co maps flags i st with
    | .error es => .error es
    | .ok (st1, true) => .ok st1
    | .ok (st1, false) => rollout_loop co maps flags (i + 1) n st1

structure RolloutRecord where
  env_feedback : String
  code : String
  full_code : String
  task_id : String
  success : Bool
  critique : String
  reasoning : String
deriving Repr, DecidableEq

/-- log_rollout (utils/log.py lines 19-47): the persisted output record
of the task (the json dump itself is the external effect; the state
field taken from the info dict is elided). -/
def log_rollout (task_id : String) (st : RolloutState) : RolloutRecord :=
  { env_feedback := st.obs,
    code := (match st.parsed_result with
             | none => ""
             | some p => p.program_code),
    full_code := (match st.parsed_result with
                  | none => ""
                  | some p => p.full_code.getD ""),
    task_id := task_id,
    success := st.critic_out.success,
    critique := st.critic_out.critique,
    reasoning := st.critic_out.reasoning }

/-- handle_rollout_error (utils/log.py lines 50-69): the line appended
to the error side channel error.txt, carrying the task identifier and
the exception; the traceback text is environment state and elided. -/
def handle_rollout_error (e task_id : String) : String :=
  "[task_id]: " ++ task_id ++ " [Unhandled Error] " ++ e ++ "\n"

structure RolloutResult where
  success : Bool
  parsed_result : Option ParsedResult
  errorFile : List String
  record : RolloutRecord
deriving Repr, DecidableEq

def rollout_init_state : RolloutState :=
  { obs := "", reward := false, parsed_result := none, code := "",
    critic_out := { success := false, critique := "", reasoning := "" } }

/-- rollout (voyager_agent.py lines 95-140): run the bounded attempt
loop inside try/except Exception; on a raise, log to the side channel;
in every case persist the rollout record and return an ordinary pair of
the last known success flag and parsed result. -/
def rollout (co : Collaborators) (maps : List (List (String × Entry)))
    (flags : RolloutFlags) (task_id : String) (max_task_attempts : Nat) :
    RolloutResult :=
  match rollout_loop co maps flags 0 max_task_attempts rollout_init_state with
  | .ok st =>
    { success := st.critic_out.success, parsed_result := st.parsed_result,
      errorFile := [], record := log_rollout task_id st }
  | .error (e, st) =>
    { success := st.critic_out.success, parsed_result := st.parsed_result,
      errorFile := [handle_rollout_error e task_id],
      record := log_rollout task_id st }

/-- C9: an uncaught exception inside the attempt loop is caught at the
task boundary: the exception and the task identifier go to the error
side channel, the rollout record is still persisted, and the controller
returns an ordinary result carrying the last known success flag and
parsed result; a loop that finishes without raising yields the same
shape with an empty side channel. -/
theorem rollout_exception_isolated :
    (∀ (co : Collaborators) (maps : List (List (String × Entry)))
       (flags : RolloutFlags) (task_id : String) (n : Nat) (e : String)
       (st : RolloutState),
       rollout_loop co maps flags 0 n rollout_init_state = .error (e, st) →
       rollout co maps flags task_id n =
         { success := st.critic_out.success, parsed_result := st.parsed_result,
           errorFile := [handle_rollout_error e task_id],
           record := log_rollout task_id st }) ∧
    (∀ (co : Collaborators) (maps : List (List (String × Entry)))
       (flags : RolloutFlags) (task_id : String) (n : Nat) (st : RolloutState),
       rollout_loop co maps flags 0 n rollout_init_state = .ok st →
       rollout co maps flags task_id n =
         { success := st.critic_out.success, parsed_result := st.parsed_result,
           errorFile := [], record := log_rollout task_id st }) := by
  constructor
  · intro co maps flags task_id n e st h
    unfold rollout
    rw [h]
  · intro co maps flags task_id n st h
    unfold rollout
    rw [h]

def c9Collaborators : Collaborators :=
  { retrieve := fun _ _ => Except.error "boom",
    gen_code := fun _ _ => Except.ok none,
    env_step := fun _ _ => Except.ok ("", false),
    critic := fun _ _ _ _ =>
      Except.ok { success := false, critique := "", reasoning := "" } }

def c9Flags : RolloutFlags :=
  { eval_later := false, train := true, use_public_tests := false }

/-- Witness for C9: a retrieval collaborator that raises on the first
attempt still produces an ordinary result, with the exception and task
id in the side channel and the record persisted. -/
theorem rollout_exception_isolated_witness :
    rollout c9Collaborators [] c9Flags "task-7" 3 =
      { success := false, parsed_result := none,
        errorFile := [handle_rollout_error "boom" "task-7"],
        record := log_rollout "task-7" rollout_init_state } :=
  rollout_exception_isolated.1 c9Collaborators [] c9Flags "task-7" 3 "boom"
    rollout_init_state rfl

end VoyagerCoder
